import Mathlib

/-!
Verification of the `util` Go package: a string chunking function
(`ChunkJoinStrings`), a lock-guarded string map (`ConcurrentMapString`),
and a channel-backed buffer pool (`BufferPool`).

The Go code is embedded shallowly:
  - Go strings are Lean `String`s; Go `len(s)` is the UTF-8 byte length.
  - Go `int` is Lean `Int` where the sign can matter (`maxlength`),
    `Nat` for values that are provably non-negative (`currlen`, counts).
  - The Go map `map[string]string` is an association list with the
    Go-map write semantics (update in place when the key is present,
    append when absent); reachable states have pairwise-distinct keys.
  - Methods that mutate their receiver take the state and return the new
    state; methods that can fail return `Except`.  An operation that
    returns an error together with the unchanged state models the Go
    method's early `return err` before any mutation.
  - The mutex / channel only serialize operations; a concurrent execution
    is modelled as an arbitrary sequential interleaving (an arbitrary
    order of the atomic operations), which the theorems quantify over.
  - `bytes.Buffer` values are identified by their address, modelled as an
    index into an explicit heap (a list of buffer contents); the pool's
    channel holds such indices, FIFO.
-/

/-- Byte length of a string, Go `len(s)` on a `string`. -/
def blen (s : String) : Nat := s.utf8ByteSize

/-- Loop of `ChunkJoinStrings` (strings.go lines 44-69), one call per
element of `params`, carrying the Go locals `buffer`, `currlen`, `joined`.
The local `iterate` is false on entry to every iteration because the Go
code resets it whenever it flushes, and it flushes whenever it is true.
`rest.isEmpty` is false exactly when Go's `i+1 < len(params)` holds.
Note the Go code adds `1` to `currlen` after writing `sep` (line 58),
not `len(sep)`, and an element that does not fit is never written. -/
def chunkLoop (maxlength : Int) (sep : String) :
    List String → String → Nat → List String → List String
  | [], buffer, _currlen, joined =>
      if 0 < blen buffer then joined ++ [buffer] else joined
  | param :: rest, buffer, currlen, joined =>
      let fits : Bool := decide ((currlen : Int) + blen param < maxlength)
      let buffer1 := if fits then buffer ++ param else buffer
      let currlen1 := if fits then currlen + blen param else currlen
      let it1 : Bool := !fits
      let sepFits : Bool := !rest.isEmpty && decide ((currlen1 : Int) + blen sep < maxlength)
      let buffer2 := if sepFits then buffer1 ++ sep else buffer1
      let currlen2 := if sepFits then currlen1 + 1 else currlen1
      let iterate : Bool := if sepFits then it1 else true
      if iterate then chunkLoop maxlength sep rest "" 0 (joined ++ [buffer2])
      else chunkLoop maxlength sep rest buffer2 currlen2 joined

/-- Embeds Go `ChunkJoinStrings(params []string, maxlength int, sep string) []string`
(strings.go lines 39-75): runs the loop from an empty buffer, zero running
length and empty result list; the trailing `buffer.Len() > 0` check is the
empty-list base case of `chunkLoop`. -/
def ChunkJoinStrings (params : List String) (maxlength : Int) (sep : String) : List String :=
  chunkLoop maxlength sep params "" 0 []

/-- Association-list read, Go `v, exists := m.data[key]`. -/
def mapLookup : List (String × String) → String → Option String
  | [], _ => none
  | (k, v) :: rest, key => if k = key then some v else mapLookup rest key

/-- Association-list write, Go `m.data[key] = value`: replaces the value
when the key is present, appends a fresh entry when it is absent. -/
def mapAssign : List (String × String) → String → String → List (String × String)
  | [], key, value => [(key, value)]
  | (k, v) :: rest, key, value =>
      if k = key then (key, value) :: rest else (k, v) :: mapAssign rest key value

/-- Association-list removal, Go `delete(m.data, key)`. -/
def mapDelete : List (String × String) → String → List (String × String)
  | [], _ => []
  | (k, v) :: rest, key => if k = key then rest else (k, v) :: mapDelete rest key

/-- Embeds the state of Go `ConcurrentMapString` (strings.go lines 79-81):
just the `data map[string]string` field.  The `sync.RWMutex` field only
serializes the operations, so it has no state-level counterpart. -/
structure ConcurrentMapString where
  data : List (String × String)
deriving DecidableEq

/-- The two error shapes produced with `fmt.Errorf` by the map operations:
`AlreadyExists` from `Add`, `NotFound` from `Del`, `Get` and `Set`; each
message quotes the offending key. -/
inductive MapError
  | alreadyExists (key : String)
  | notFound (key : String)
deriving DecidableEq

/-- Embeds Go `NewConcurrentMapString` (strings.go lines 84-89): an empty map. -/
def NewConcurrentMapString : ConcurrentMapString := ⟨[]⟩

/-- Embeds Go `(*ConcurrentMapString).Add` (strings.go lines 111-123):
error `AlreadyExists` and unchanged state when the key is present,
otherwise inserts and succeeds. -/
def ConcurrentMapString.Add (m : ConcurrentMapString) (key value : String) :
    Except MapError Unit × ConcurrentMapString :=
  match mapLookup m.data key with
  | some _ => (.error (.alreadyExists key), m)
  | none => (.ok (), ⟨mapAssign m.data key value⟩)

/-- Embeds Go `(*ConcurrentMapString).Del` (strings.go lines 127-140):
error `NotFound` and unchanged state when the key is absent, otherwise
removes the entry and succeeds. -/
def ConcurrentMapString.Del (m : ConcurrentMapString) (key : String) :
    Except MapError Unit × ConcurrentMapString :=
  match mapLookup m.data key with
  | none => (.error (.notFound key), m)
  | some _ => (.ok (), ⟨mapDelete m.data key⟩)

/-- Embeds Go `(*ConcurrentMapString).Get` (strings.go lines 144-155):
read-only, error `NotFound` when the key is absent. -/
def ConcurrentMapString.Get (m : ConcurrentMapString) (key : String) :
    Except MapError String :=
  match mapLookup m.data key with
  | none => .error (.notFound key)
  | some v => .ok v

/-- Embeds Go `(*ConcurrentMapString).Set` (strings.go lines 159-172):
error `NotFound` and unchanged state when the key is absent, otherwise
overwrites the value and succeeds. -/
def ConcurrentMapString.Set (m : ConcurrentMapString) (key value : String) :
    Except MapError Unit × ConcurrentMapString :=
  match mapLookup m.data key with
  | none => (.error (.notFound key), m)
  | some _ => (.ok (), ⟨mapAssign m.data key value⟩)

/-- Embeds Go `(*ConcurrentMapString).Exists` (strings.go lines 176-182). -/
def ConcurrentMapString.Exists (m : ConcurrentMapString) (key : String) : Bool :=
  (mapLookup m.data key).isSome

/-- Embeds Go `(*ConcurrentMapString).Length` (strings.go lines 102-107):
`len(m.data)`. -/
def ConcurrentMapString.Length (m : ConcurrentMapString) : Nat := m.data.length

/-- Well-formedness of the association list as a Go map: keys are pairwise
distinct.  Every state reachable through the operations from
`NewConcurrentMapString` satisfies it. -/
def MapWF (m : ConcurrentMapString) : Prop := (m.data.map Prod.fst).Nodup

/-- Sequential execution of a batch of `Add` calls, one per `(key, value)`
pair, in the order of the list; models one linearization (one lock
acquisition order) of concurrently issued `Add`s.  Returns every call's
result together with the final map. -/
def runAdds : ConcurrentMapString → List (String × String) →
    List (Except MapError Unit) × ConcurrentMapString
  | m, [] => ([], m)
  | m, (k, v) :: rest =>
      (((m.Add k v).1 :: (runAdds (m.Add k v).2 rest).1), (runAdds (m.Add k v).2 rest).2)

/-- Embeds Go `BufferPool` (part_000 lines 32-34) together with the part
of the program heap holding `bytes.Buffer` values: `heap` maps a buffer's
address (its index) to its current content, `cap` is the capacity of the
`Buffers` channel, and `bufs` lists the addresses queued in the channel,
head first. -/
structure BufferPool where
  heap : List String
  cap : Nat
  bufs : List Nat
deriving DecidableEq

/-- Embeds Go `NewBufferPool(max int)` (part_000 lines 37-41):
an empty channel of capacity `max`, nothing allocated yet. -/
def NewBufferPool (max : Nat) : BufferPool := ⟨[], max, []⟩

/-- Embeds Go `(*BufferPool).Warmup(num, length int)` (part_000 lines 45-54):
`num` times, allocate a fresh empty buffer and attempt a non-blocking send;
return as soon as a send would block.  `length` is unused, exactly as in
the Go code. -/
def BufferPool.Warmup : BufferPool → Nat → Nat → BufferPool
  | pool, 0, _ => pool
  | pool, n + 1, length =>
      if pool.bufs.length < pool.cap then
        BufferPool.Warmup ⟨pool.heap ++ [""], pool.cap, pool.bufs ++ [pool.heap.length]⟩
          n length
      else
        ⟨pool.heap ++ [""], pool.cap, pool.bufs⟩

/-- Embeds Go `(*BufferPool).New()` (part_000 lines 57-64), the spec's
`Take`: non-blocking receive from the channel, falling back to a fresh
empty buffer allocated at the next free address. -/
def BufferPool.New (pool : BufferPool) : Nat × BufferPool :=
  match pool.bufs with
  | buf :: rest => (buf, ⟨pool.heap, pool.cap, rest⟩)
  | [] => (pool.heap.length, ⟨pool.heap ++ [""], pool.cap, []⟩)

/-- Embeds Go `(*BufferPool).Recycle(buf *bytes.Buffer)` (part_000 lines
67-73): `buf.Reset()` first, in all cases, then a non-blocking send that
drops the buffer when the channel is full. -/
def BufferPool.Recycle (pool : BufferPool) (buf : Nat) : BufferPool :=
  if pool.bufs.length < pool.cap then
    ⟨pool.heap.set buf "", pool.cap, pool.bufs ++ [buf]⟩
  else
    ⟨pool.heap.set buf "", pool.cap, pool.bufs⟩

/-- Pool invariant: every buffer queued in the channel has empty content. -/
def PoolInv (pool : BufferPool) : Prop :=
  ∀ b ∈ pool.bufs, pool.heap[b]? = some ""

/-- One `BufferPool` operation, for quantifying over operation sequences. -/
inductive PoolOp
  | warmup (num length : Nat)
  | take
  | recycle (buf : Nat)

/-- State transition of one `BufferPool` operation. -/
def poolStep (pool : BufferPool) : PoolOp → BufferPool
  | .warmup num length => pool.Warmup num length
  | .take => (pool.New).2
  | .recycle buf => pool.Recycle buf

/-- Runs a sequence of `BufferPool` operations. -/
def runPool (pool : BufferPool) (ops : List PoolOp) : BufferPool :=
  ops.foldl poolStep pool

theorem blen_empty : blen "" = 0 := rfl

theorem chunkLoop_nonpos (sep : String) (maxlength : Int) (hml : maxlength ≤ 0)
    (l : List String) :
    ∀ j : List String,
      chunkLoop maxlength sep l "" 0 j = j ++ List.replicate l.length "" := by
  induction l with
  | nil => intro j; simp [chunkLoop, blen_empty]
  | cons p rest ih =>
      intro j
      have h1 : decide (((0 : Nat) : Int) + (blen p : Int) < maxlength) = false := by
        simp only [decide_eq_false_iff_not, not_lt]
        have : (0 : Int) ≤ (blen p : Int) := Int.ofNat_nonneg _
        omega
      have h2 : decide (((0 : Nat) : Int) + (blen sep : Int) < maxlength) = false := by
        simp only [decide_eq_false_iff_not, not_lt]
        have : (0 : Int) ≤ (blen sep : Int) := Int.ofNat_nonneg _
        omega
      simp only [chunkLoop, h1, h2, Bool.and_false, Bool.false_and, if_false,
        Bool.not_false, if_true, Bool.false_eq_true, ite_false, ite_true]
      rw [ih (j ++ [""])]
      simp [List.replicate_succ]

/-- C1: refuted as stated; the code drops a token.  With tokens
`["aa", "aa"]`, separator `","` and `maxLength = 4` — which satisfies the
claim's premise, since the longest token (2 bytes) plus the separator
(1 byte) is strictly below 4 — the code returns `["aa,"]`: the second
`"aa"` never appears in any chunk, so concatenating the tokens contained
in the chunks does not reproduce the input sequence.  The loop's first
branch (strings.go line 47) skips an element that does not fit and never
revisits it, contradicting the function's own comment, which promises the
element "instead starts to build a new string". -/
theorem chunkJoin_drops_token :
    ((blen "aa" : Int) + (blen "," : Int) < 4) ∧
    ChunkJoinStrings ["aa", "aa"] 4 "," = ["aa,"] := by decide

/-- C2: refuted; the worked example in the spec does not match the code.
On `["a", "bb", "ccc"]` with `maxLength = 4` and separator `","` the code
does not return `["a,bb", "ccc"]`. -/
theorem chunkJoin_example_counterexample :
    ChunkJoinStrings ["a", "bb", "ccc"] 4 "," ≠ ["a,bb", "ccc"] := by decide

/-- C2 (amended): the code actually returns `["a,,", "ccc"]`: after `"a,"`
the token `"bb"` fails the `currlen+len(param) < maxlength` test
(2 + 2 < 4 is false) and is dropped, yet the separator check still
succeeds and appends a second `","` before the chunk is flushed. -/
theorem chunkJoin_example_actual :
    ChunkJoinStrings ["a", "bb", "ccc"] 4 "," = ["a,,", "ccc"] := by decide

/-- C3: refuted as stated; an oversized token is not placed alone in its
own chunk — it is dropped entirely.  The token `"aaaa"` (4 bytes, equal to
`maxLength = 4`) never satisfies `currlen+len(param) < maxlength`, so it
is never written; the iteration still flushes the (empty) buffer, so the
output is `[""]`: one empty chunk and no trace of the token. -/
theorem chunkJoin_oversized_dropped :
    4 ≤ blen "aaaa" ∧ ChunkJoinStrings ["aaaa"] 4 "," = [""] := by decide

/-- C8: refuted as stated for `maxLength <= 0`: on `["a"]` with
`maxLength = 0` the code returns `[""]`, not the empty sequence. -/
theorem chunkJoin_degenerate_counterexample :
    ChunkJoinStrings ["a"] 0 "," ≠ [] := by decide

/-- C8 (amended): an empty token sequence yields the empty sequence, and
`maxLength <= 0` yields one empty chunk per token (nothing ever fits, so
every iteration flushes an empty buffer), not the empty sequence. -/
theorem chunkJoin_degenerate :
    (∀ (maxlength : Int) (sep : String), ChunkJoinStrings [] maxlength sep = []) ∧
    (∀ (params : List String) (maxlength : Int) (sep : String), maxlength ≤ 0 →
      ChunkJoinStrings params maxlength sep = List.replicate params.length "") := by
  refine ⟨fun ml sep => rfl, fun params ml sep hml => ?_⟩
  have h := chunkLoop_nonpos sep ml hml params []
  simpa [ChunkJoinStrings] using h

/-- Witness for the amended C8 at concrete inputs. -/
theorem chunkJoin_degenerate_witness :
    ChunkJoinStrings ["a", "b"] 0 "," = List.replicate (["a", "b"].length) "" :=
  chunkJoin_degenerate.2 ["a", "b"] 0 "," (by decide)

theorem mapLookup_assign_self (d : List (String × String)) (k v : String) :
    mapLookup (mapAssign d k v) k = some v := by
  induction d with
  | nil => simp [mapAssign, mapLookup]
  | cons p rest ih =>
      obtain ⟨key, val⟩ := p
      by_cases h : key = k <;> simp [mapAssign, mapLookup, h, ih]

theorem mapLookup_assign_ne (d : List (String × String)) (k v q : String) (hq : q ≠ k) :
    mapLookup (mapAssign d k v) q = mapLookup d q := by
  induction d with
  | nil =>
      simp only [mapAssign, mapLookup]
      rw [if_neg (fun e : k = q => hq e.symm)]
  | cons p rest ih =>
      obtain ⟨key, val⟩ := p
      simp only [mapAssign]
      by_cases h : key = k
      · rw [if_pos h]
        simp only [mapLookup]
        rw [if_neg (fun e : k = q => hq e.symm),
          if_neg (fun e : key = q => hq (e.symm.trans h))]
      · rw [if_neg h]
        simp only [mapLookup]
        by_cases h2 : key = q
        · rw [if_pos h2, if_pos h2]
        · rw [if_neg h2, if_neg h2, ih]

theorem mapLookup_eq_none_of_not_mem (d : List (String × String)) (k : String)
    (h : k ∉ d.map Prod.fst) : mapLookup d k = none := by
  induction d with
  | nil => rfl
  | cons p rest ih =>
      obtain ⟨key, val⟩ := p
      simp only [List.map_cons, List.mem_cons, not_or] at h
      simp [mapLookup, Ne.symm h.1, ih h.2]

theorem mapLookup_delete_self (d : List (String × String)) (k : String)
    (hnd : (d.map Prod.fst).Nodup) :
    mapLookup (mapDelete d k) k = none := by
  induction d with
  | nil => simp [mapDelete, mapLookup]
  | cons p rest ih =>
      obtain ⟨key, val⟩ := p
      simp only [List.map_cons, List.nodup_cons] at hnd
      by_cases h : key = k
      · subst h
        simp only [mapDelete, if_pos rfl]
        exact mapLookup_eq_none_of_not_mem rest key hnd.1
      · simp [mapDelete, mapLookup, h, ih hnd.2]

theorem mapLength_assign_absent (d : List (String × String)) (k v : String)
    (habs : mapLookup d k = none) :
    (mapAssign d k v).length = d.length + 1 := by
  induction d with
  | nil => rfl
  | cons p rest ih =>
      obtain ⟨key, val⟩ := p
      by_cases h : key = k
      · simp [mapLookup, h] at habs
      · simp only [mapLookup, if_neg h] at habs
        simp [mapAssign, h, ih habs]

/-- C4: confirmed.  On a well-formed map state: `Add` of an absent key
succeeds and `Get` then returns the value; `Add` of a present key fails
with `AlreadyExists`; `Get`, `Del` and `Set` of an absent key fail with
`NotFound`; `Get` right after a successful `Del` fails with `NotFound`;
and each operation succeeds exactly when its presence condition holds
(`Add` iff absent; `Del`, `Set`, `Get` iff present). -/
theorem map_crud_spec (m : ConcurrentMapString) (k v : String) (hwf : MapWF m) :
    (mapLookup m.data k = none →
      (m.Add k v).1 = .ok () ∧ ((m.Add k v).2).Get k = .ok v) ∧
    (∀ w, mapLookup m.data k = some w →
      ∀ v2, (m.Add k v2).1 = .error (.alreadyExists k)) ∧
    (mapLookup m.data k = none →
      m.Get k = .error (.notFound k) ∧
      (m.Del k).1 = .error (.notFound k) ∧
      (m.Set k v).1 = .error (.notFound k)) ∧
    ((m.Del k).1 = .ok () → ((m.Del k).2).Get k = .error (.notFound k)) ∧
    ((m.Add k v).1 = .ok () ↔ mapLookup m.data k = none) ∧
    ((m.Del k).1 = .ok () ↔ mapLookup m.data k ≠ none) ∧
    ((m.Set k v).1 = .ok () ↔ mapLookup m.data k ≠ none) ∧
    ((∃ w, m.Get k = .ok w) ↔ mapLookup m.data k ≠ none) := by
  cases h : mapLookup m.data k with
  | none =>
      refine ⟨fun _ => ⟨?_, ?_⟩, ?_, fun _ => ⟨?_, ?_, ?_⟩, ?_, ?_, ?_, ?_, ?_⟩
      · simp [ConcurrentMapString.Add, h]
      · simp [ConcurrentMapString.Add, h, ConcurrentMapString.Get, mapLookup_assign_self]
      · intro w hw; exact absurd hw (by simp)
      · simp [ConcurrentMapString.Get, h]
      · simp [ConcurrentMapString.Del, h]
      · simp [ConcurrentMapString.Set, h]
      · intro hd; simp [ConcurrentMapString.Del, h] at hd
      · simp [ConcurrentMapString.Add, h]
      · simp [ConcurrentMapString.Del, h]
      · simp [ConcurrentMapString.Set, h]
      · simp [ConcurrentMapString.Get, h]
  | some w0 =>
      refine ⟨fun habs => absurd habs (by simp), ?_,
        fun habs => absurd habs (by simp), ?_, ?_, ?_, ?_, ?_⟩
      · intro w _ v2; simp [ConcurrentMapString.Add, h]
      · intro _
        simp [ConcurrentMapString.Del, h, ConcurrentMapString.Get,
          mapLookup_delete_self m.data k hwf]
      · simp [ConcurrentMapString.Add, h]
      · simp [ConcurrentMapString.Del, h]
      · simp [ConcurrentMapString.Set, h]
      · simp [ConcurrentMapString.Get, h]

/-- Witness for C4 at a concrete state: on the map `{"x" ↦ "1"}`, `Get`
of the absent key `"y"` fails with `NotFound`. -/
theorem map_crud_spec_witness :
    (ConcurrentMapString.mk [("x", "1")]).Get "y" = .error (.notFound "y") :=
  ((map_crud_spec ⟨[("x", "1")]⟩ "y" "2" (by unfold MapWF; decide)).2.2.1 (by decide)).1

/-- C5: confirmed.  Whenever `Add`, `Set` or `Del` returns an error, the
map state after the call is exactly the state before the call. -/
theorem map_error_preserves_state (m : ConcurrentMapString) (k v : String) :
    (∀ e, (m.Add k v).1 = .error e → (m.Add k v).2 = m) ∧
    (∀ e, (m.Set k v).1 = .error e → (m.Set k v).2 = m) ∧
    (∀ e, (m.Del k).1 = .error e → (m.Del k).2 = m) := by
  cases h : mapLookup m.data k with
  | none =>
      refine ⟨?_, ?_, ?_⟩ <;> intro e he <;>
        simp [ConcurrentMapString.Add, ConcurrentMapString.Set,
          ConcurrentMapString.Del, h] at he ⊢
  | some w =>
      refine ⟨?_, ?_, ?_⟩ <;> intro e he <;>
        simp [ConcurrentMapString.Add, ConcurrentMapString.Set,
          ConcurrentMapString.Del, h] at he ⊢

/-- Witness for C5: `Add` of the present key `"x"` fails and leaves the
map `{"x" ↦ "1"}` unchanged. -/
theorem map_error_preserves_state_witness :
    ((ConcurrentMapString.mk [("x", "1")]).Add "x" "2").2 = ⟨[("x", "1")]⟩ :=
  (map_error_preserves_state ⟨[("x", "1")]⟩ "x" "2").1 (.alreadyExists "x") rfl

theorem runAdds_fresh (pairs : List (String × String)) :
    ∀ m : ConcurrentMapString,
      (∀ k ∈ pairs.map Prod.fst, mapLookup m.data k = none) →
      (pairs.map Prod.fst).Nodup →
      (∀ r ∈ (runAdds m pairs).1, r = .ok ()) ∧
      ((runAdds m pairs).2).Length = m.Length + pairs.length := by
  induction pairs with
  | nil => intro m _ _; exact ⟨by simp [runAdds], by simp [runAdds]⟩
  | cons p rest ih =>
      obtain ⟨k, v⟩ := p
      intro m hfresh hnd
      simp only [List.map_cons, List.nodup_cons] at hnd
      have hk : mapLookup m.data k = none := hfresh k (by simp)
      have hadd1 : (m.Add k v).1 = .ok () := by simp [ConcurrentMapString.Add, hk]
      have hadd2 : (m.Add k v).2 = ⟨mapAssign m.data k v⟩ := by
        simp [ConcurrentMapString.Add, hk]
      have hrest : ∀ q ∈ rest.map Prod.fst, mapLookup ((m.Add k v).2).data q = none := by
        intro q hq
        rw [hadd2]
        rw [mapLookup_assign_ne m.data k v q (fun e => hnd.1 (e ▸ hq))]
        exact hfresh q (by simp [hq])
      obtain ⟨hok, hlen⟩ := ih (m.Add k v).2 hrest hnd.2
      constructor
      · intro r hr
        simp only [runAdds, List.mem_cons] at hr
        rcases hr with h1 | h2
        · exact h1 ▸ hadd1
        · exact hok r h2
      · simp only [runAdds]
        rw [hlen, hadd2]
        simp only [ConcurrentMapString.Length]
        rw [mapLength_assign_absent m.data k v hk]
        simp [Nat.add_assoc, Nat.add_comm 1]

/-- C9: confirmed, modulo the concurrency model stated in the module
header: the `sync.RWMutex` makes each operation atomic, so a concurrent
execution of N `Add` calls is some sequential order of them, and the
theorem quantifies over every such order.  For every batch of `Add`s with
pairwise-distinct keys, run in any order on a fresh shared map, every
`Add` succeeds and `Length` of the final map is the number of keys: no
update is lost. -/
theorem concurrent_adds_distinct_keys (pairs : List (String × String))
    (hnd : (pairs.map Prod.fst).Nodup) :
    (∀ r ∈ (runAdds NewConcurrentMapString pairs).1, r = .ok ()) ∧
    ((runAdds NewConcurrentMapString pairs).2).Length = pairs.length := by
  have h := runAdds_fresh pairs NewConcurrentMapString (fun k _ => rfl) hnd
  simpa [NewConcurrentMapString, ConcurrentMapString.Length] using h

/-- Witness for C9 at a concrete batch of two distinct keys. -/
theorem concurrent_adds_distinct_keys_witness :
    ((runAdds NewConcurrentMapString [("a", "1"), ("b", "2")]).2).Length = 2 :=
  (concurrent_adds_distinct_keys [("a", "1"), ("b", "2")] (by decide)).2

theorem getElem?_append_of_some (l : List String) (a : String) (b : Nat)
    (h : l[b]? = some "") : (l ++ [a])[b]? = some "" := by
  have hb : b < l.length := by
    by_contra hge
    rw [List.getElem?_eq_none (Nat.le_of_not_lt hge)] at h
    exact Option.noConfusion h
  rw [List.getElem?_append_left hb]
  exact h

theorem poolInv_new (c : Nat) : PoolInv (NewBufferPool c) := by
  intro b hb
  simp [NewBufferPool] at hb

theorem poolInv_take (pool : BufferPool) (hinv : PoolInv pool) :
    PoolInv (pool.New).2 ∧ (pool.New).2.heap[(pool.New).1]? = some "" := by
  obtain ⟨heap, cap, bufs⟩ := pool
  cases bufs with
  | cons buf rest =>
      refine ⟨fun b hb => hinv b (List.mem_cons_of_mem _ hb), ?_⟩
      exact hinv buf (List.mem_cons_self _ _)
  | nil =>
      refine ⟨fun b hb => absurd hb (List.not_mem_nil b), ?_⟩
      exact List.getElem?_concat_length heap ""

theorem poolInv_take_empty (pool : BufferPool) (hempty : pool.bufs = []) :
    (pool.New).1 = pool.heap.length ∧ (pool.New).2.heap[(pool.New).1]? = some "" := by
  obtain ⟨heap, cap, bufs⟩ := pool
  simp only at hempty
  subst hempty
  exact ⟨rfl, List.getElem?_concat_length heap ""⟩

theorem poolInv_recycle (pool : BufferPool) (buf : Nat) (hb : buf < pool.heap.length)
    (hinv : PoolInv pool) : PoolInv (pool.Recycle buf) := by
  unfold BufferPool.Recycle
  by_cases hc : pool.bufs.length < pool.cap
  · rw [if_pos hc]
    intro b hmem
    simp only [List.mem_append, List.mem_singleton] at hmem
    rcases hmem with hmem | rfl
    · by_cases he : buf = b
      · subst he
        exact List.getElem?_set_eq_of_lt "" hb
      · rw [List.getElem?_set_ne he]
        exact hinv b hmem
    · exact List.getElem?_set_eq_of_lt "" hb
  · rw [if_neg hc]
    intro b hmem
    by_cases he : buf = b
    · subst he
      exact List.getElem?_set_eq_of_lt "" hb
    · rw [List.getElem?_set_ne he]
      exact hinv b hmem

theorem poolInv_warmup (n : Nat) :
    ∀ (pool : BufferPool) (len : Nat), PoolInv pool → PoolInv (pool.Warmup n len) := by
  induction n with
  | zero => intro pool len hinv; exact hinv
  | succ n ih =>
      intro pool len hinv
      unfold BufferPool.Warmup
      by_cases hc : pool.bufs.length < pool.cap
      · rw [if_pos hc]
        apply ih
        intro b hb
        simp only [List.mem_append, List.mem_singleton] at hb
        rcases hb with hb | rfl
        · exact getElem?_append_of_some _ _ _ (hinv b hb)
        · exact List.getElem?_concat_length pool.heap ""
      · rw [if_neg hc]
        intro b hb
        exact getElem?_append_of_some _ _ _ (hinv b hb)

/-- C6: confirmed.  Queued-buffers-are-empty is an invariant of the pool:
it holds of a fresh pool, is preserved by `New`, `Recycle` (which resets
the buffer before queueing it) and `Warmup` (which queues fresh empty
buffers), and under it every buffer handed out by `New` has empty
content — whether it was taken from the pool or freshly allocated; on an
empty pool `New` always returns a freshly allocated empty buffer. -/
theorem pool_buffers_empty_invariant :
    (∀ c, PoolInv (NewBufferPool c)) ∧
    (∀ pool : BufferPool, PoolInv pool →
      PoolInv (pool.New).2 ∧ (pool.New).2.heap[(pool.New).1]? = some "") ∧
    (∀ pool : BufferPool, pool.bufs = [] →
      (pool.New).1 = pool.heap.length ∧ (pool.New).2.heap[(pool.New).1]? = some "") ∧
    (∀ (pool : BufferPool) (buf : Nat),
      buf < pool.heap.length → PoolInv pool → PoolInv (pool.Recycle buf)) ∧
    (∀ (n : Nat) (pool : BufferPool) (len : Nat), PoolInv pool → PoolInv (pool.Warmup n len)) :=
  ⟨poolInv_new, poolInv_take, poolInv_take_empty,
    fun pool buf hb hinv => poolInv_recycle pool buf hb hinv,
    fun n pool len hinv => poolInv_warmup n pool len hinv⟩

/-- Witness for C6: taking from a pool holding one recycled buffer hands
out a buffer with empty content. -/
theorem pool_buffers_empty_invariant_witness :
    ((BufferPool.mk [""] 1 [0]).New).2.heap[((BufferPool.mk [""] 1 [0]).New).1]? = some "" :=
  (pool_buffers_empty_invariant.2.1 ⟨[""], 1, [0]⟩ (by unfold PoolInv; decide)).2

theorem warmup_bound (n : Nat) :
    ∀ (pool : BufferPool) (len : Nat), pool.bufs.length ≤ pool.cap →
      (pool.Warmup n len).bufs.length ≤ (pool.Warmup n len).cap ∧
      (pool.Warmup n len).cap = pool.cap := by
  induction n with
  | zero => intro pool len h; exact ⟨h, rfl⟩
  | succ n ih =>
      intro pool len h
      unfold BufferPool.Warmup
      by_cases hc : pool.bufs.length < pool.cap
      · rw [if_pos hc]
        exact ih ⟨pool.heap ++ [""], pool.cap, pool.bufs ++ [pool.heap.length]⟩ len
          (by simpa using hc)
      · rw [if_neg hc]
        exact ⟨h, rfl⟩

theorem poolStep_bound (pool : BufferPool) (op : PoolOp)
    (h : pool.bufs.length ≤ pool.cap) :
    (poolStep pool op).bufs.length ≤ (poolStep pool op).cap ∧
    (poolStep pool op).cap = pool.cap := by
  cases op with
  | warmup num len => exact warmup_bound num pool len h
  | take =>
      obtain ⟨heap, cap, bufs⟩ := pool
      cases bufs with
      | nil => exact ⟨Nat.zero_le _, rfl⟩
      | cons b rest =>
          refine ⟨?_, rfl⟩
          simp only [poolStep, BufferPool.New]
          simp only [List.length_cons] at h
          omega
  | recycle buf =>
      simp only [poolStep, BufferPool.Recycle]
      by_cases hc : pool.bufs.length < pool.cap
      · rw [if_pos hc]
        refine ⟨?_, rfl⟩
        simp only [List.length_append, List.length_singleton]
        omega
      · rw [if_neg hc]
        exact ⟨h, rfl⟩

theorem runPool_bound (ops : List PoolOp) :
    ∀ pool : BufferPool, pool.bufs.length ≤ pool.cap →
      (runPool pool ops).bufs.length ≤ (runPool pool ops).cap ∧
      (runPool pool ops).cap = pool.cap := by
  induction ops with
  | nil => intro pool h; exact ⟨h, rfl⟩
  | cons op rest ih =>
      intro pool h
      have hstep := poolStep_bound pool op h
      have hrest := ih (poolStep pool op) hstep.1
      exact ⟨hrest.1, hrest.2.trans hstep.2⟩

/-- C7: confirmed.  After any sequence of `Warmup`, `New` and `Recycle`
operations on a pool constructed with capacity `c`, at most `c` buffers
are queued; and `Recycle` on a pool already holding `cap` buffers leaves
the queued buffers unchanged (the buffer is discarded).  All pool
operations are total functions: none errors or blocks. -/
theorem pool_capacity_bound :
    (∀ (c : Nat) (ops : List PoolOp), (runPool (NewBufferPool c) ops).bufs.length ≤ c) ∧
    (∀ (pool : BufferPool) (buf : Nat), pool.bufs.length = pool.cap →
      (pool.Recycle buf).bufs = pool.bufs ∧ (pool.Recycle buf).cap = pool.cap) := by
  constructor
  · intro c ops
    have h := runPool_bound ops (NewBufferPool c) (by simp [NewBufferPool])
    simpa [NewBufferPool] using h.1.trans_eq h.2
  · intro pool buf hfull
    unfold BufferPool.Recycle
    rw [if_neg (by omega)]
    exact ⟨rfl, rfl⟩

/-- Witness for C7: recycling into a full pool of capacity 1 leaves the
queue unchanged. -/
theorem pool_capacity_bound_witness :
    ((BufferPool.mk [""] 1 [0]).Recycle 0).bufs = [0] :=
  (pool_capacity_bound.2 ⟨[""], 1, [0]⟩ 0 rfl).1

/-- C10: confirmed.  `Recycle` resets the buffer's content to empty
before the non-blocking send, unconditionally: the heap after `Recycle`
is always the old heap with that buffer's content set to empty, whether
or not the buffer is queued; in particular the caller's still-referenced
buffer reads back empty even when the pool was full and the buffer was
discarded. -/
theorem recycle_resets_unconditionally (pool : BufferPool) (buf : Nat) :
    (pool.Recycle buf).heap = pool.heap.set buf "" ∧
    (buf < pool.heap.length → (pool.Recycle buf).heap[buf]? = some "") := by
  constructor
  · unfold BufferPool.Recycle
    by_cases hc : pool.bufs.length < pool.cap
    · rw [if_pos hc]
    · rw [if_neg hc]
  · intro hb
    unfold BufferPool.Recycle
    by_cases hc : pool.bufs.length < pool.cap
    · rw [if_pos hc]
      exact List.getElem?_set_eq_of_lt "" hb
    · rw [if_neg hc]
      exact List.getElem?_set_eq_of_lt "" hb

/-- Witness for C10: recycling the buffer `0` (content `"x"`) into a full
pool of capacity 0 discards it, yet its content reads back empty. -/
theorem recycle_resets_unconditionally_witness :
    ((BufferPool.mk ["x"] 0 []).Recycle 0).heap[0]? = some "" :=
  (recycle_resets_unconditionally ⟨["x"], 0, []⟩ 0).2 (by decide)
